import Mathlib

/-!
# Verification of `candidateparser.hpp`

A shallow embedding of the C++ wrapper `dbrgn::IceCandidate` around the C interface of the
ICE candidate parser, followed by theorems about it.

Conventions of the embedding:

* `std::ostream` is the list of characters written so far, formatted with the default flags
  (decimal integers, no padding);
* `string_view` is the list of characters it designates, `basic_string_view<std::uint8_t>` the
  list of byte values it designates;
* a `char const *` is `none` for the null pointer and `some mem` for a pointer to the
  characters `mem` of the array it points into (terminator included);
* unsigned machine integers are natural numbers, reduced modulo `2 ^ w` where they are stored
  into a `w`-bit member;
* code whose behaviour is undefined in C++ (dereferencing the null pointer, reading past the
  end of an array) yields `Outcome.undefined`.
-/

namespace dbrgn

/-- Outcome of executing a piece of the C++ code: it either produces a value, or its behaviour
is undefined (the null pointer was dereferenced, or an array was read past its end). The second
case is not a value handed to a caller. -/
inductive Outcome (α : Type) where
  | value (a : α)
  | undefined
  deriving DecidableEq, Repr

/-- Tells whether the execution produced a value. -/
def Outcome.isValue {α : Type} : Outcome α → Bool
  | .value _ => true
  | .undefined => false

/-- Text designated by a `string_view`. -/
abbrev string_view := List Char

/-- Bytes designated by a `basic_string_view<std::uint8_t>`. -/
abbrev byte_view := List Nat

/-- Characters written so far to a `std::ostream` with default formatting flags. -/
abbrev ostream := List Char

/-- Pointer of type `char const *`: `none` is the null pointer, `some mem` points to the first
character of the array `mem`. -/
abbrev c_str_ptr := Option (List Char)

/-- The terminating character of C strings. -/
def NUL : Char := Char.ofNat 0

/-- Array of characters a string literal denotes: its characters followed by the terminator. -/
def literal (s : String) : List Char := s.toList ++ [NUL]

namespace internal

/-- Loop of `make_view` (lines 79-83): `string` is what remains of the array at index
`length`; reading past the end of the array is undefined. -/
def make_view.loop : List Char → Nat → Outcome Nat
  | [], _ => Outcome.undefined
  | c :: rest, length => if c ≠ NUL then make_view.loop rest (length + 1) else Outcome.value length

/-- Embedding of `internal::make_view` (lines 77-86): counts the characters before the first
terminator and returns the view of that many characters. -/
def make_view (string : List Char) : Outcome string_view :=
  match make_view.loop string 0 with
  | Outcome.value length => Outcome.value (string.take length)
  | Outcome.undefined => Outcome.undefined

end internal

/-- Constructor `string_view(char const *)` of the standard library: the characters before the
first terminator; undefined on the null pointer. -/
def string_view_of_c_str : c_str_ptr → Outcome string_view
  | none => Outcome.undefined
  | some mem => internal.make_view mem

/-- Constructor `basic_string_view(pointer, length)` of the standard library, where `data`
lists the bytes of the array the pointer points into: the view of the first `len` bytes. The
constructor requires `len` bytes to be there; a length beyond the end of the array is undefined. -/
def view_of (data : List Nat) (len : Nat) : Outcome byte_view :=
  if len ≤ data.length then Outcome.value (data.take len) else Outcome.undefined

/-- Comparison `operator<` of `basic_string_view<std::uint8_t>` in the standard library:
lexicographic on the unsigned byte values, a proper initial segment being smaller. -/
def sv_lt : byte_view → byte_view → Bool
  | [], [] => false
  | [], _ :: _ => true
  | _ :: _, [] => false
  | a :: as, b :: bs => if a < b then true else if b < a then false else sv_lt as bs

/-- Contents of a `std::map<basic_string_view<std::uint8_t>, basic_string_view<std::uint8_t>>`:
its entries in iteration order, which is ascending key order. -/
abbrev ext_map := List (byte_view × byte_view)

/-- Member `std::map::emplace` of the standard library: inserts the entry at its place in key
order, and leaves the map unchanged when an equivalent key is already there. -/
def ext_map.emplace : ext_map → byte_view × byte_view → ext_map
  | [], kv => [kv]
  | e :: rest, kv =>
    if sv_lt kv.1 e.1 then kv :: e :: rest
    else if sv_lt e.1 kv.1 then e :: ext_map.emplace rest kv
    else e :: rest

/-- Member `std::map::find` of the standard library: the value of the entry whose key is
equivalent to `k` (neither smaller nor greater), if there is one. -/
def ext_map.find : ext_map → byte_view → Option byte_view
  | [], _ => none
  | e :: rest, k => if !sv_lt k e.1 && !sv_lt e.1 k then some e.2 else ext_map.find rest k

/-- Modelled from the spec: the record `KeyValuePair` of `candidateparser.h`, a header that is
not among the sources. Its fields are the ones `incarnate_map` reads: two pointers to bytes,
given by the bytes of the arrays they point into, and two lengths. -/
structure KeyValuePair where
  key : List Nat
  key_len : Nat
  val : List Nat
  val_len : Nat
  deriving DecidableEq, Repr

/-- Modelled from the spec: the record `KeyValueMap` of `candidateparser.h`, a header that is
not among the sources. Its fields are the ones `incarnate_map` reads: a pointer to an array of
pairs, given by that array, and a length. -/
structure KeyValueMap where
  values : List KeyValuePair
  len : Nat
  deriving DecidableEq, Repr

/-- Modelled from the spec: the record `IceCandidateFFI` of `candidateparser.h`, a header that
is not among the sources. Its fields are the ones the constructor of `IceCandidate` reads; the
text fields are `char const *`, the numeric fields unsigned integers. -/
structure IceCandidateFFI where
  foundation : c_str_ptr
  component_id : Nat
  transport : c_str_ptr
  priority : Nat
  connection_address : c_str_ptr
  port : Nat
  candidate_type : c_str_ptr
  rel_addr : c_str_ptr
  rel_port : Nat
  extensions : KeyValueMap
  deriving DecidableEq, Repr

namespace internal

/-- Loop of `incarnate_map` (lines 93-97). The first argument is the number of iterations left,
`data.len - pairIdx`; reading `data.values[pairIdx]` past the end of the array is undefined, and
so is a key or a value whose length goes beyond its array. -/
def incarnate_map.loop (data : KeyValueMap) : Nat → Nat → ext_map → Outcome ext_map
  | 0, _, map => Outcome.value map
  | left + 1, pairIdx, map =>
    match data.values[pairIdx]? with
    | none => Outcome.undefined
    | some rustPair =>
      match view_of rustPair.key rustPair.key_len, view_of rustPair.val rustPair.val_len with
      | Outcome.value key, Outcome.value val =>
        incarnate_map.loop data left (pairIdx + 1) (map.emplace (key, val))
      | _, _ => Outcome.undefined

/-- Embedding of `internal::incarnate_map` (lines 88-100) at the map type of
`IceCandidate::extensions`. -/
def incarnate_map (data : KeyValueMap) : Outcome ext_map :=
  incarnate_map.loop data data.len 0 []

/-- Function `std::isprint` of the standard library in the "C" locale: the characters from
space (0x20) to tilde (0x7E). -/
def isprint (byte : Nat) : Bool := decide (0x20 ≤ byte) && decide (byte ≤ 0x7E)

/-- Embedding of `internal::write_bytes` (lines 102-116): a printable byte is written as the
character it encodes, any other byte as a question mark. -/
def write_bytes (out : ostream) : byte_view → ostream
  | [] => out
  | byte :: rest =>
    if isprint byte then write_bytes (out ++ [Char.ofNat byte]) rest
    else write_bytes (out ++ ['?']) rest

end internal

/-- Embedding of `struct Transport` (lines 119-130). -/
structure Transport where
  value : string_view
  deriving DecidableEq, Repr

/-- Embedding of `Transport::operator==` (line 128): equality of the designated texts. -/
def Transport.eq (self other : Transport) : Bool := decide (self.value = other.value)

/-- Embedding of `struct CandidateType` (lines 132-146). -/
structure CandidateType where
  value : string_view
  deriving DecidableEq, Repr

/-- Embedding of `CandidateType::operator==` (line 141): equality of the designated texts. -/
def CandidateType.eq (self other : CandidateType) : Bool := decide (self.value = other.value)

/-- Value of a constant initialised with `internal::make_view(lit)`; the proof argument says
that the evaluation of `make_view` on the literal is defined. -/
def view_of_literal (lit : String) (h : (internal.make_view (literal lit)).isValue = true) :
    string_view :=
  match internal.make_view (literal lit), h with
  | Outcome.value v, _ => v

/-- Constant `kTransportUdp` (line 130). -/
def kTransportUdp : Transport := ⟨view_of_literal "udp" rfl⟩

/-- Constant `kCandidateTypeHost` (line 143). -/
def kCandidateTypeHost : CandidateType := ⟨view_of_literal "host" rfl⟩

/-- Constant `kCandidateTypeSrflx` (line 144). -/
def kCandidateTypeSrflx : CandidateType := ⟨view_of_literal "srflx" rfl⟩

/-- Constant `kCandidateTypePrfls` (line 145), initialised with the text "prflx". -/
def kCandidateTypePrfls : CandidateType := ⟨view_of_literal "prflx" rfl⟩

/-- Constant `kCandidateTypeRelay` (line 146). -/
def kCandidateTypeRelay : CandidateType := ⟨view_of_literal "relay" rfl⟩

/-- Embedding of the data members of `class IceCandidate` (lines 211-220). The owning handle
`m_rustData` holds no data of its own and is left out. -/
structure IceCandidate where
  foundation : string_view
  component_id : Nat
  transport : Transport
  priority : Nat
  connection_address : string_view
  port : Nat
  type : CandidateType
  rel_address : Option string_view
  rel_port : Option Nat
  extensions : Option ext_map
  deriving DecidableEq, Repr

/-- Embedding of the constructor `IceCandidate::IceCandidate` (lines 151-163). Every member is
initialised from the field of the record `rust_data` points to, so a null `rust_data` is
dereferenced. The three optional members are initialised from a plain value and therefore
always hold one. -/
def IceCandidate.ctor (rust_data : Option IceCandidateFFI) : Outcome IceCandidate :=
  match rust_data with
  | none => Outcome.undefined
  | some m_rustData =>
    match string_view_of_c_str m_rustData.foundation,
          string_view_of_c_str m_rustData.transport,
          string_view_of_c_str m_rustData.connection_address,
          string_view_of_c_str m_rustData.candidate_type,
          string_view_of_c_str m_rustData.rel_addr,
          internal.incarnate_map m_rustData.extensions with
    | Outcome.value foundation, Outcome.value transport, Outcome.value connection_address,
      Outcome.value type, Outcome.value rel_address, Outcome.value extensions =>
      Outcome.value
        { foundation := foundation
          component_id := m_rustData.component_id % 2 ^ 32
          transport := ⟨transport⟩
          priority := m_rustData.priority % 2 ^ 64
          connection_address := connection_address
          port := m_rustData.port % 2 ^ 16
          type := ⟨type⟩
          rel_address := some rel_address
          rel_port := some (m_rustData.rel_port % 2 ^ 16)
          extensions := some extensions }
    | _, _, _, _, _, _ => Outcome.undefined

/-- Embedding of `IceCandidate::parse` (lines 169-172). The parser of the C interface,
`parse_ice_candidate_sdp`, is not among the sources and is a parameter: it maps the C string of
the line to a pointer to a record, null when the line is rejected. -/
def IceCandidate.parse (parse_ice_candidate_sdp : List Char → Option IceCandidateFFI)
    (data : String) : Outcome IceCandidate :=
  IceCandidate.ctor (parse_ice_candidate_sdp (literal data))

/-- Insertion of a string literal or of a `string_view` into the stream. -/
def put (out : ostream) (s : List Char) : ostream := out ++ s

/-- Insertion of an integer into the stream: its decimal digits. -/
def put_int (out : ostream) (n : Nat) : ostream := out ++ Nat.toDigits 10 n

/-- Loop over the entries of the extensions (lines 193-200), in iteration order of the map. -/
def write_extensions (out : ostream) : ext_map → ostream
  | [] => out
  | extension :: rest =>
    let out := put out "\t\t".toList
    let out := internal.write_bytes out extension.1
    let out := put out " => ".toList
    let out := internal.write_bytes out extension.2
    let out := put out "\n".toList
    write_extensions out rest

/-- Embedding of `operator<<(std::ostream &, IceCandidate const &)` (lines 174-209). The
conditional of line 185 has the operands `std::uint16_t` and `char`, hence the type `int`: the
stream receives an integer in both cases, zero when `rel_port` is empty. -/
def operator_shl (out : ostream) (candidate : IceCandidate) : ostream :=
  let out := put out "IceCandidate : \x7b\n".toList
  let out := put out "\tfoundation         : ".toList
  let out := put out candidate.foundation
  let out := put out "\n".toList
  let out := put out "\tcomponent_id       : ".toList
  let out := put_int out candidate.component_id
  let out := put out "\n".toList
  let out := put out "\ttransport          : ".toList
  let out := put out candidate.transport.value
  let out := put out "\n".toList
  let out := put out "\tpriority           : ".toList
  let out := put_int out candidate.priority
  let out := put out "\n".toList
  let out := put out "\tconnection_address : ".toList
  let out := put out candidate.connection_address
  let out := put out "\n".toList
  let out := put out "\tport               : ".toList
  let out := put_int out candidate.port
  let out := put out "\n".toList
  let out := put out "\ttype               : ".toList
  let out := put out candidate.type.value
  let out := put out "\n".toList
  let out := put out "\trel_address        : ".toList
  let out := put out (match candidate.rel_address with
    | some rel_address => rel_address
    | none => "".toList)
  let out := put out "\n".toList
  let out := put out "\trel_port           : ".toList
  let out := put_int out (match candidate.rel_port with
    | some rel_port => rel_port
    | none => 0)
  let out := put out "\n".toList
  let out := put out "\textensions         : ".toList
  let out := match candidate.extensions with
    | some extensions => write_extensions (put out "\x7b\n".toList) extensions
    | none => put out "-\n".toList
  put out "\x7d".toList

/-! ## Notions used to state the properties -/

/-- The pair of byte sequences a `KeyValuePair` designates: the first `key_len` bytes at `key`
and the first `val_len` bytes at `val`. -/
def KeyValuePair.views (p : KeyValuePair) : byte_view × byte_view :=
  (List.take p.key_len p.key, List.take p.val_len p.val)

/-- The pairs of byte sequences a `KeyValueMap` designates: those of the first `len` elements
of the array `values`, in the order of the array. -/
def KeyValueMap.pairs (data : KeyValueMap) : List (byte_view × byte_view) :=
  (data.values.take data.len).map KeyValuePair.views

/-- The entries are listed in strictly ascending order of their keys. -/
def ascending_keys (m : ext_map) : Prop := m.Pairwise (fun a b => sv_lt a.1 b.1 = true)

/-- Line of the dump for one entry of the extensions: both byte sequences in safe display,
separated by an arrow. -/
def extension_line (e : byte_view × byte_view) : List Char :=
  "\t\t".toList ++ internal.write_bytes [] e.1 ++ " => ".toList ++ internal.write_bytes [] e.2 ++
    "\n".toList

/-- Labelled line of the dump: a tabulator, the label padded with spaces to 18 characters, a
colon between two spaces, the text of the field and a line feed. -/
def labelled_line (label : String) (text : List Char) : List Char :=
  "\t".toList ++ label.toList ++ List.replicate (18 - label.length) ' ' ++ " : ".toList ++ text ++
    "\n".toList

/-- Decimal digits of a number, as the stream writes an unsigned integer. -/
def decimal (n : Nat) : List Char := Nat.toDigits 10 n

/-- The labelled lines of the dump of a candidate, as pairs of a label and the text of the
field, in the order of the dump. -/
def dump_lines (c : IceCandidate) : List (String × List Char) :=
  [ ("foundation", c.foundation),
    ("component_id", decimal c.component_id),
    ("transport", c.transport.value),
    ("priority", decimal c.priority),
    ("connection_address", c.connection_address),
    ("port", decimal c.port),
    ("type", c.type.value),
    ("rel_address", match c.rel_address with
      | some a => a
      | none => []),
    ("rel_port", match c.rel_port with
      | some p => decimal p
      | none => decimal 0),
    ("extensions", match c.extensions with
      | some _ => "\x7b".toList
      | none => "-".toList) ]

/-- The lines of the dump that follow the line labelled `extensions`: one per entry of the
mapping, in iteration order. -/
def dump_entries (c : IceCandidate) : List (List Char) :=
  match c.extensions with
  | some m => m.map extension_line
  | none => []

/-- Start of a labelled line of the dump: a tabulator, the label padded with spaces to 18
characters, and a colon between two spaces. -/
def label_start (label : String) : List Char :=
  "\t".toList ++ label.toList ++ List.replicate (18 - label.length) ' ' ++ " : ".toList

/-- The labels of the fields, in the order of the data model. -/
def field_labels : List String :=
  ["foundation", "component_id", "transport", "priority", "connection_address", "port", "type",
    "rel_address", "rel_port", "extensions"]

/-- The lines of a text: the pieces between its line feeds. -/
def text_lines : List Char → List (List Char)
  | [] => [[]]
  | ch :: rest =>
    if ch = '\n' then [] :: text_lines rest
    else
      match text_lines rest with
      | [] => [[ch]]
      | line :: more => (ch :: line) :: more

/-- The field a line is labelled with: the first label of the data model whose start begins
the line, if there is one. -/
def line_label (line : List Char) : Option String :=
  field_labels.find? (fun label => (label_start label).isPrefixOf line)

/-- The labels of the labelled lines of a text, in the order of the lines. -/
def labels_of_lines (text : List Char) : List String :=
  (text_lines text).filterMap line_label

/-- The lines of the dump for the entries of the extensions, without their line feed. -/
def dump_entry_texts (c : IceCandidate) : List (List Char) :=
  match c.extensions with
  | some m =>
    m.map (fun e =>
      "\t\t".toList ++ internal.write_bytes [] e.1 ++ " => ".toList ++ internal.write_bytes [] e.2)
  | none => []

/-! ## Sample data -/

/-- Record for the line `1 1 udp 2130706431 192.168.1.1 8998 typ host raddr 10.0.1.1 rport 8998
generation 0`. -/
def sampleFFI : IceCandidateFFI :=
  { foundation := some (literal "1")
    component_id := 1
    transport := some (literal "udp")
    priority := 2130706431
    connection_address := some (literal "192.168.1.1")
    port := 8998
    candidate_type := some (literal "host")
    rel_addr := some (literal "10.0.1.1")
    rel_port := 8998
    extensions := { values := [⟨[103, 101, 110], 3, [48, 7], 2⟩], len := 1 } }

/-- Array of two pairs with the same key, the byte 1, and the values 10 and 20. -/
def duplicateKeys : KeyValueMap :=
  { values := [⟨[1], 1, [10], 1⟩, ⟨[1], 1, [20], 1⟩], len := 2 }

/-- Array of two pairs whose first key is said to be two bytes long in an array of one byte. -/
def overlongKey : KeyValueMap :=
  { values := [⟨[1], 2, [10], 1⟩, ⟨[1], 1, [20], 1⟩], len := 2 }

/-- Array of two pairs with the keys 2 and 1, the second value holding a control byte. -/
def twoKeys : KeyValueMap :=
  { values := [⟨[2, 9], 1, [20], 1⟩, ⟨[1], 1, [7, 65, 200], 3⟩], len := 2 }

/-- Candidate of the line `1 1 udp 2130706431 192.168.1.1 8998 typ host` with no optional
field. -/
def sampleCandidate : IceCandidate :=
  { foundation := "1".toList
    component_id := 1
    transport := kTransportUdp
    priority := 2130706431
    connection_address := "192.168.1.1".toList
    port := 8998
    type := kCandidateTypeHost
    rel_address := none
    rel_port := none
    extensions := none }

/-- The sample candidate with a foundation that holds a line feed followed by the start of
a line labelled `port`. -/
def lineFeedCandidate : IceCandidate :=
  { sampleCandidate with foundation := "1\n\tport               : 7".toList }

/-- Record whose component id is 0 and whose priority is 2 ^ 31. -/
def outOfRangeFFI : IceCandidateFFI :=
  { sampleFFI with component_id := 0, priority := 2147483648 }

/-! ## The constructor and `parse` -/

/-- When the constructor yields a candidate, the pointer was not null, every text member is the
view of the matching C string, the numbers are the record's numbers reduced to the width of the
member, and the three optional members hold a value. -/
theorem ctor_eq_value {rust_data : Option IceCandidateFFI} {c : IceCandidate}
    (h : IceCandidate.ctor rust_data = Outcome.value c) :
    ∃ r foundation transport connection_address type rel_address extensions,
      rust_data = some r ∧
      string_view_of_c_str r.foundation = Outcome.value foundation ∧
      string_view_of_c_str r.transport = Outcome.value transport ∧
      string_view_of_c_str r.connection_address = Outcome.value connection_address ∧
      string_view_of_c_str r.candidate_type = Outcome.value type ∧
      string_view_of_c_str r.rel_addr = Outcome.value rel_address ∧
      internal.incarnate_map r.extensions = Outcome.value extensions ∧
      c = { foundation := foundation
            component_id := r.component_id % 2 ^ 32
            transport := ⟨transport⟩
            priority := r.priority % 2 ^ 64
            connection_address := connection_address
            port := r.port % 2 ^ 16
            type := ⟨type⟩
            rel_address := some rel_address
            rel_port := some (r.rel_port % 2 ^ 16)
            extensions := some extensions } := by
  unfold IceCandidate.ctor at h
  split at h
  · cases h
  · rename_i r
    split at h
    · rename_i f t a ty ra ext h1 h2 h3 h4 h5 h6
      injection h with h
      exact ⟨r, f, t, a, ty, ra, ext, rfl, h1, h2, h3, h4, h5, h6, h.symm⟩
    · cases h

/-- C1: when the underlying parser yields no record (a null pointer), `parse` does not hand a
failure value to its caller: the constructor dereferences the null pointer, which is undefined
behaviour. -/
theorem C1_parse_null_is_undefined
    (parse_ice_candidate_sdp : List Char → Option IceCandidateFFI) (data : String)
    (h : parse_ice_candidate_sdp (literal data) = none) :
    IceCandidate.parse parse_ice_candidate_sdp data = Outcome.undefined := by
  unfold IceCandidate.parse
  rw [h]
  rfl

/-- Instance of C1 for the empty line and a parser that rejects every line. -/
theorem C1_parse_null_is_undefined_witness :
    IceCandidate.parse (fun _ => none) "" = Outcome.undefined :=
  C1_parse_null_is_undefined (fun _ => none) "" rfl

/-- C2, refuted as stated: the constructor builds a candidate from a record whose component id
is 0 and whose priority is 2 ^ 31, and stores both, outside the protocol ranges. -/
theorem C2_counterexample :
    ∃ c, IceCandidate.ctor (some outOfRangeFFI) = Outcome.value c ∧
      ¬ ((1 ≤ c.component_id ∧ c.component_id ≤ 256) ∧ c.priority ≤ 2 ^ 31 - 1 ∧
          c.port ≤ 65535) := by
  refine ⟨_, rfl, ?_⟩
  decide

/-- C2, amended: every candidate built by the constructor stores the three numbers of the
record reduced to the width of the member, with no range check: the port is in [0, 65535], the
component id in [0, 2 ^ 32 - 1] and the priority in [0, 2 ^ 64 - 1], and a number of the record
that fits the member is stored unchanged. -/
theorem C2_numeric_fields_bounded_by_type (rust_data : Option IceCandidateFFI)
    (c : IceCandidate) (h : IceCandidate.ctor rust_data = Outcome.value c) :
    ∃ r, rust_data = some r ∧
      c.component_id = r.component_id % 2 ^ 32 ∧ c.priority = r.priority % 2 ^ 64 ∧
      c.port = r.port % 2 ^ 16 ∧
      c.component_id ≤ 2 ^ 32 - 1 ∧ c.priority ≤ 2 ^ 64 - 1 ∧ c.port ≤ 65535 ∧
      (r.component_id < 2 ^ 32 → c.component_id = r.component_id) ∧
      (r.priority < 2 ^ 64 → c.priority = r.priority) ∧
      (r.port < 2 ^ 16 → c.port = r.port) := by
  obtain ⟨r, f, t, a, ty, ra, ext, hr, -, -, -, -, -, -, hc⟩ := ctor_eq_value h
  subst hc
  refine ⟨r, hr, rfl, rfl, rfl, ?_, ?_, ?_, ?_, ?_, ?_⟩
  · have := Nat.mod_lt r.component_id (show 0 < 2 ^ 32 by norm_num)
    show r.component_id % 2 ^ 32 ≤ 2 ^ 32 - 1
    omega
  · have := Nat.mod_lt r.priority (show 0 < 2 ^ 64 by norm_num)
    show r.priority % 2 ^ 64 ≤ 2 ^ 64 - 1
    omega
  · have := Nat.mod_lt r.port (show 0 < 2 ^ 16 by norm_num)
    show r.port % 2 ^ 16 ≤ 65535
    omega
  · intro hlt
    exact Nat.mod_eq_of_lt hlt
  · intro hlt
    exact Nat.mod_eq_of_lt hlt
  · intro hlt
    exact Nat.mod_eq_of_lt hlt

/-- Instance of the amended C2 for the record whose component id is 0. -/
theorem C2_numeric_fields_bounded_by_type_witness :
    ∃ c, IceCandidate.ctor (some outOfRangeFFI) = Outcome.value c ∧
      ∃ r, some outOfRangeFFI = some r ∧
        c.component_id = r.component_id % 2 ^ 32 ∧ c.priority = r.priority % 2 ^ 64 ∧
        c.port = r.port % 2 ^ 16 ∧
        c.component_id ≤ 2 ^ 32 - 1 ∧ c.priority ≤ 2 ^ 64 - 1 ∧ c.port ≤ 65535 ∧
        (r.component_id < 2 ^ 32 → c.component_id = r.component_id) ∧
        (r.priority < 2 ^ 64 → c.priority = r.priority) ∧
        (r.port < 2 ^ 16 → c.port = r.port) :=
  ⟨_, rfl, C2_numeric_fields_bounded_by_type (some outOfRangeFFI) _ rfl⟩

/-- C3: in every candidate built by the constructor, `rel_address` holds a value if and only if
`rel_port` holds a value. -/
theorem C3_rel_presence_paired (rust_data : Option IceCandidateFFI) (c : IceCandidate)
    (h : IceCandidate.ctor rust_data = Outcome.value c) :
    c.rel_address.isSome = true ↔ c.rel_port.isSome = true := by
  obtain ⟨r, f, t, a, ty, ra, ext, -, -, -, -, -, -, -, hc⟩ := ctor_eq_value h
  subst hc
  simp

/-- Instance of C3 for the sample record. -/
theorem C3_rel_presence_paired_witness :
    ∃ c, IceCandidate.ctor (some sampleFFI) = Outcome.value c ∧
      (c.rel_address.isSome = true ↔ c.rel_port.isSome = true) :=
  ⟨_, rfl, C3_rel_presence_paired (some sampleFFI) _ rfl⟩

/-! ## `write_bytes` -/

/-- Character `write_bytes` writes for one byte. -/
theorem write_bytes_eq_map (out : ostream) (b : byte_view) :
    internal.write_bytes out b =
      out ++ b.map (fun x => if internal.isprint x = true then Char.ofNat x else '?') := by
  induction b generalizing out with
  | nil => simp [internal.write_bytes]
  | cons x rest ih =>
    unfold internal.write_bytes
    by_cases hx : internal.isprint x = true
    · simp [hx, ih]
    · simp [hx, ih]

/-- The character written for a printable byte has the code of the byte. -/
theorem toNat_ofNat_of_isprint {x : Nat} (hx : internal.isprint x = true) :
    (Char.ofNat x).toNat = x := by
  simp only [internal.isprint, Bool.and_eq_true, decide_eq_true_eq] at hx
  have hv : x.isValidChar := Or.inl (by omega)
  simp [Char.ofNat, hv, Char.ofNatAux, Char.toNat, UInt32.toNat]

/-- C4: `write_bytes` appends exactly one character per byte of its argument; the character
written for a printable byte (0x20..0x7E) is that byte, the character written for any other
byte is the question mark, and every appended character is printable. -/
theorem C4_write_bytes_safe (out : ostream) (b : byte_view) :
    ∃ appended : List Char,
      internal.write_bytes out b = out ++ appended ∧
      appended.length = b.length ∧
      (∀ (i x : Nat), b[i]? = some x → ∃ ch, appended[i]? = some ch ∧
        (0x20 ≤ x ∧ x ≤ 0x7E → ch.toNat = x) ∧ (¬ (0x20 ≤ x ∧ x ≤ 0x7E) → ch = '?')) ∧
      ∀ ch ∈ appended, 0x20 ≤ ch.toNat ∧ ch.toNat ≤ 0x7E := by
  refine ⟨_, write_bytes_eq_map out b, by simp, ?_, ?_⟩
  · intro i x hx
    refine ⟨if internal.isprint x = true then Char.ofNat x else '?',
      by simp [List.getElem?_map, hx], ?_, ?_⟩
    · intro hr
      have hp : internal.isprint x = true := by simp [internal.isprint, hr]
      simp only [hp, if_true]
      exact toNat_ofNat_of_isprint hp
    · intro hr
      have hp : ¬ internal.isprint x = true := by
        simpa [internal.isprint] using hr
      rw [if_neg hp]
  · intro ch hch
    obtain ⟨x, -, rfl⟩ := List.mem_map.1 hch
    by_cases hp : internal.isprint x = true
    · simp only [hp, if_true, toNat_ofNat_of_isprint hp]
      simpa [internal.isprint] using hp
    · rw [if_neg hp]
      decide

/-! ## `make_view` and the comparison of `Transport` and `CandidateType` -/

/-- The loop of `make_view` stops at the first terminator. -/
theorem make_view_loop_append (text rest : List Char) (length : Nat) (h : NUL ∉ text) :
    internal.make_view.loop (text ++ NUL :: rest) length = Outcome.value (length + text.length) := by
  induction text generalizing length with
  | nil => simp [internal.make_view.loop]
  | cons c cs ih =>
    have hc : c ≠ NUL := fun e => h (by simp [e])
    have hcs : NUL ∉ cs := fun e => h (by simp [e])
    show internal.make_view.loop (c :: (cs ++ NUL :: rest)) length = _
    rw [internal.make_view.loop, if_pos hc, ih _ hcs, List.length_cons, Nat.add_assoc,
      Nat.add_comm 1]

/-- The view `make_view` returns is the text before the first terminator. -/
theorem make_view_append (text rest : List Char) (h : NUL ∉ text) :
    internal.make_view (text ++ NUL :: rest) = Outcome.value text := by
  unfold internal.make_view
  rw [make_view_loop_append text rest 0 h]
  simp

/-- C10: a `CandidateType` (or `Transport`) compares equal to one of the constants exactly when
its text is the text of that constant, character for character; `make_view` returns the
characters before the first terminator, so the values of the constants are "udp", "host",
"srflx", "prflx" and "relay", and the four candidate types are pairwise unequal. -/
theorem C10_compare_by_text :
    (∀ s : string_view, CandidateType.eq ⟨s⟩ kCandidateTypeHost = true ↔ s = "host".toList) ∧
    (∀ s : string_view, CandidateType.eq ⟨s⟩ kCandidateTypeSrflx = true ↔ s = "srflx".toList) ∧
    (∀ s : string_view, CandidateType.eq ⟨s⟩ kCandidateTypePrfls = true ↔ s = "prflx".toList) ∧
    (∀ s : string_view, CandidateType.eq ⟨s⟩ kCandidateTypeRelay = true ↔ s = "relay".toList) ∧
    (∀ s : string_view, Transport.eq ⟨s⟩ kTransportUdp = true ↔ s = "udp".toList) ∧
    (∀ text rest : List Char, NUL ∉ text →
      internal.make_view (text ++ NUL :: rest) = Outcome.value text ∧
      string_view_of_c_str (some (text ++ NUL :: rest)) = Outcome.value text) ∧
    (internal.make_view (literal "udp") = Outcome.value kTransportUdp.value ∧
      internal.make_view (literal "host") = Outcome.value kCandidateTypeHost.value ∧
      internal.make_view (literal "srflx") = Outcome.value kCandidateTypeSrflx.value ∧
      internal.make_view (literal "prflx") = Outcome.value kCandidateTypePrfls.value ∧
      internal.make_view (literal "relay") = Outcome.value kCandidateTypeRelay.value) ∧
    (CandidateType.eq kCandidateTypeHost kCandidateTypeSrflx = false ∧
      CandidateType.eq kCandidateTypeHost kCandidateTypePrfls = false ∧
      CandidateType.eq kCandidateTypeHost kCandidateTypeRelay = false ∧
      CandidateType.eq kCandidateTypeSrflx kCandidateTypePrfls = false ∧
      CandidateType.eq kCandidateTypeSrflx kCandidateTypeRelay = false ∧
      CandidateType.eq kCandidateTypePrfls kCandidateTypeRelay = false) ∧
    CandidateType.eq ⟨"Host".toList⟩ kCandidateTypeHost = false := by
  have hh : kCandidateTypeHost.value = "host".toList := by decide
  have hs : kCandidateTypeSrflx.value = "srflx".toList := by decide
  have hp : kCandidateTypePrfls.value = "prflx".toList := by decide
  have hr : kCandidateTypeRelay.value = "relay".toList := by decide
  have hu : kTransportUdp.value = "udp".toList := by decide
  refine ⟨?_, ?_, ?_, ?_, ?_, ?_, ?_, ?_, ?_⟩
  · intro s
    simp [CandidateType.eq, hh]
  · intro s
    simp [CandidateType.eq, hs]
  · intro s
    simp [CandidateType.eq, hp]
  · intro s
    simp [CandidateType.eq, hr]
  · intro s
    simp [Transport.eq, hu]
  · intro text rest h
    exact ⟨make_view_append text rest h, make_view_append text rest h⟩
  · decide
  · decide
  · decide

/-- Instance of C10 for the C string "relay" followed by other memory. -/
theorem C10_compare_by_text_witness :
    internal.make_view ("relay".toList ++ NUL :: "x".toList) = Outcome.value "relay".toList ∧
    string_view_of_c_str (some ("relay".toList ++ NUL :: "x".toList)) =
      Outcome.value "relay".toList :=
  C10_compare_by_text.2.2.2.2.2.1 "relay".toList "x".toList (by decide)

/-! ## The order on keys -/

theorem sv_lt_irrefl (a : byte_view) : sv_lt a a = false := by
  induction a with
  | nil => rfl
  | cons x xs ih => simp [sv_lt, ih]

theorem sv_lt_trans {a b c : byte_view} (hab : sv_lt a b = true) (hbc : sv_lt b c = true) :
    sv_lt a c = true := by
  induction a generalizing b c with
  | nil =>
    cases b with
    | nil => simp [sv_lt] at hab
    | cons y ys =>
      cases c with
      | nil => simp [sv_lt] at hbc
      | cons z zs => simp [sv_lt]
  | cons x xs ih =>
    cases b with
    | nil => simp [sv_lt] at hab
    | cons y ys =>
      cases c with
      | nil => simp [sv_lt] at hbc
      | cons z zs =>
        simp only [sv_lt] at hab hbc ⊢
        split_ifs at hab hbc ⊢ <;> first
          | rfl
          | omega
          | exact ih hab hbc

theorem sv_lt_asymm {a b : byte_view} (hab : sv_lt a b = true) : sv_lt b a = false := by
  cases h : sv_lt b a with
  | false => rfl
  | true =>
    have := sv_lt_trans hab h
    rw [sv_lt_irrefl] at this
    cases this

theorem sv_eq_of_not_lt {a b : byte_view} (hab : sv_lt a b = false) (hba : sv_lt b a = false) :
    a = b := by
  induction a generalizing b with
  | nil =>
    cases b with
    | nil => rfl
    | cons y ys => simp [sv_lt] at hab
  | cons x xs ih =>
    cases b with
    | nil => simp [sv_lt] at hba
    | cons y ys =>
      simp only [sv_lt] at hab hba
      split_ifs at hab hba
      · have hxy : x = y := by omega
        rw [hxy, ih hab hba]

/-- Two keys are equivalent for the map, neither smaller than the other, exactly when they are
the same bytes. -/
theorem sv_equiv_iff (a b : byte_view) : (!sv_lt a b && !sv_lt b a) = true ↔ a = b := by
  constructor
  · intro h
    simp only [Bool.and_eq_true, Bool.not_eq_true'] at h
    exact sv_eq_of_not_lt h.1 h.2
  · rintro rfl
    simp [sv_lt_irrefl]

/-! ## The map -/

theorem emplace_cons_lt {e kv : byte_view × byte_view} (rest : ext_map)
    (h : sv_lt kv.1 e.1 = true) : ext_map.emplace (e :: rest) kv = kv :: e :: rest := by
  simp [ext_map.emplace, h]

theorem emplace_cons_gt {e kv : byte_view × byte_view} (rest : ext_map)
    (h : sv_lt e.1 kv.1 = true) :
    ext_map.emplace (e :: rest) kv = e :: ext_map.emplace rest kv := by
  simp [ext_map.emplace, h, sv_lt_asymm h]

theorem emplace_cons_eq {e kv : byte_view × byte_view} (rest : ext_map)
    (h1 : sv_lt kv.1 e.1 = false) (h2 : sv_lt e.1 kv.1 = false) :
    ext_map.emplace (e :: rest) kv = e :: rest := by
  simp [ext_map.emplace, h1, h2]

theorem find_cons (e : byte_view × byte_view) (rest : ext_map) (k : byte_view) :
    ext_map.find (e :: rest) k = if k = e.1 then some e.2 else ext_map.find rest k := by
  show (if (!sv_lt k e.1 && !sv_lt e.1 k) = true then some e.2 else ext_map.find rest k) = _
  by_cases h : k = e.1
  · rw [if_pos ((sv_equiv_iff k e.1).2 h), if_pos h]
  · rw [if_neg (fun h2 => h ((sv_equiv_iff k e.1).1 h2)), if_neg h]

theorem find_nil (k : byte_view) : ext_map.find [] k = none := rfl

theorem find_none_of_lt (m : ext_map) (k : byte_view)
    (h : ∀ x ∈ m, sv_lt k x.1 = true) : ext_map.find m k = none := by
  induction m with
  | nil => rfl
  | cons e rest ih =>
    rw [find_cons]
    have he : k ≠ e.1 := by
      intro heq
      have := h e (by simp)
      rw [heq, sv_lt_irrefl] at this
      cases this
    rw [if_neg he]
    exact ih (fun x hx => h x (by simp [hx]))

theorem mem_emplace {m : ext_map} {kv x : byte_view × byte_view}
    (hx : x ∈ ext_map.emplace m kv) : x = kv ∨ x ∈ m := by
  induction m with
  | nil =>
    simp only [ext_map.emplace, List.mem_singleton] at hx
    exact Or.inl hx
  | cons e rest ih =>
    unfold ext_map.emplace at hx
    split_ifs at hx
    · rcases List.mem_cons.1 hx with h | h
      · exact Or.inl h
      · exact Or.inr h
    · rcases List.mem_cons.1 hx with h | h
      · exact Or.inr (by simp [h])
      · rcases ih h with h2 | h2
        · exact Or.inl h2
        · exact Or.inr (by simp [h2])
    · exact Or.inr hx

theorem emplace_ascending {m : ext_map} (kv : byte_view × byte_view) (hm : ascending_keys m) :
    ascending_keys (ext_map.emplace m kv) := by
  unfold ascending_keys at hm ⊢
  induction m with
  | nil => simp [ext_map.emplace]
  | cons e rest ih =>
    rw [List.pairwise_cons] at hm
    unfold ext_map.emplace
    split_ifs with h1 h2
    · refine List.pairwise_cons.2 ⟨?_, List.pairwise_cons.2 hm⟩
      intro x hx
      rcases List.mem_cons.1 hx with h | h
      · rw [h]
        exact h1
      · exact sv_lt_trans h1 (hm.1 x h)
    · refine List.pairwise_cons.2 ⟨?_, ih hm.2⟩
      intro x hx
      rcases mem_emplace hx with h | h
      · rw [h]
        exact h2
      · exact hm.1 x h
    · exact List.pairwise_cons.2 hm

/-- Lookup after `emplace`: an entry already bound keeps its value, and the new key is bound
to the new value only when it was not bound before. -/
theorem find_emplace {m : ext_map} (kv : byte_view × byte_view) (k : byte_view)
    (hm : ascending_keys m) :
    ext_map.find (ext_map.emplace m kv) k =
      match ext_map.find m k with
      | some v => some v
      | none => if k = kv.1 then some kv.2 else none := by
  unfold ascending_keys at hm
  induction m with
  | nil => simp [ext_map.emplace, find_cons, find_nil]
  | cons e rest ih =>
    rw [List.pairwise_cons] at hm
    cases h1 : sv_lt kv.1 e.1 with
    | true =>
      rw [emplace_cons_lt rest h1, find_cons]
      by_cases hk : k = kv.1
      · have hnone : ext_map.find (e :: rest) k = none := by
          apply find_none_of_lt
          intro x hx
          rw [hk]
          rcases List.mem_cons.1 hx with h | h
          · rw [h]
            exact h1
          · exact sv_lt_trans h1 (hm.1 x h)
        rw [if_pos hk, hnone]
        simp [hk]
      · rw [if_neg hk]
        cases ext_map.find (e :: rest) k <;> simp [hk]
    | false =>
      cases h2 : sv_lt e.1 kv.1 with
      | true =>
        rw [emplace_cons_gt rest h2, find_cons, find_cons, ih hm.2]
        by_cases hk : k = e.1
        · simp [hk]
        · simp [hk]
      | false =>
        have hkv : kv.1 = e.1 := sv_eq_of_not_lt h1 h2
        rw [emplace_cons_eq rest h1 h2, find_cons]
        by_cases hk : k = e.1
        · simp [hk]
        · have hk2 : k ≠ kv.1 := by
            rw [hkv]
            exact hk
          rw [if_neg hk]
          cases ext_map.find rest k <;> simp [hk2]

theorem emplace_perm {m : ext_map} {kv : byte_view × byte_view} (hm : ascending_keys m)
    (hk : ext_map.find m kv.1 = none) : (ext_map.emplace m kv).Perm (kv :: m) := by
  unfold ascending_keys at hm
  induction m with
  | nil => simp [ext_map.emplace]
  | cons e rest ih =>
    rw [List.pairwise_cons] at hm
    rw [find_cons] at hk
    have hne : kv.1 ≠ e.1 := by
      intro heq
      rw [if_pos heq] at hk
      cases hk
    rw [if_neg hne] at hk
    cases h1 : sv_lt kv.1 e.1 with
    | true =>
      rw [emplace_cons_lt rest h1]
    | false =>
      cases h2 : sv_lt e.1 kv.1 with
      | true =>
        rw [emplace_cons_gt rest h2]
        exact ((ih hm.2 hk).cons e).trans (List.Perm.swap kv e rest)
      | false => exact absurd (sv_eq_of_not_lt h1 h2) hne

/-- Lookup after a sequence of `emplace`: the value the map already had, or else the value of
the first pair of the sequence with that key. -/
theorem find_foldl (l : List (byte_view × byte_view)) {m : ext_map} (k : byte_view)
    (hm : ascending_keys m) :
    ext_map.find (l.foldl ext_map.emplace m) k =
      match ext_map.find m k with
      | some v => some v
      | none => ext_map.find l k := by
  induction l generalizing m with
  | nil =>
    rw [List.foldl_nil, find_nil]
    cases ext_map.find m k <;> rfl
  | cons p rest ih =>
    rw [List.foldl_cons, ih (emplace_ascending p hm), find_emplace p k hm, find_cons]
    cases ext_map.find m k with
    | some v => rfl
    | none =>
      by_cases hk : k = p.1
      · simp [hk]
      · simp [hk]

theorem foldl_perm (l : List (byte_view × byte_view)) {m : ext_map} (hm : ascending_keys m)
    (hnd : (l.map Prod.fst).Nodup) (hfresh : ∀ p ∈ l, ext_map.find m p.1 = none) :
    (l.foldl ext_map.emplace m).Perm (m ++ l) := by
  induction l generalizing m with
  | nil => simp
  | cons p rest ih =>
    rw [List.map_cons, List.nodup_cons] at hnd
    have hp : ext_map.find m p.1 = none := hfresh p (by simp)
    have hrest : ∀ q ∈ rest, ext_map.find (ext_map.emplace m p) q.1 = none := by
      intro q hq
      have hqp : q.1 ≠ p.1 := fun h => hnd.1 (by rw [← h]; exact List.mem_map_of_mem _ hq)
      rw [find_emplace p q.1 hm, hfresh q (by simp [hq])]
      simp [hqp]
    rw [List.foldl_cons]
    refine (ih (emplace_ascending p hm) hnd.2 hrest).trans ?_
    refine ((emplace_perm hm hp).append_right rest).trans ?_
    exact List.perm_middle.symm

theorem find_of_mem_nodup {l : List (byte_view × byte_view)} (hnd : (l.map Prod.fst).Nodup)
    {kv : byte_view × byte_view} (h : kv ∈ l) : ext_map.find l kv.1 = some kv.2 := by
  induction l with
  | nil => cases h
  | cons p rest ih =>
    rw [List.map_cons, List.nodup_cons] at hnd
    rw [find_cons]
    rcases List.mem_cons.1 h with hp | hp
    · rw [hp, if_pos rfl]
    · have hne : kv.1 ≠ p.1 := fun e => hnd.1 (by rw [← e]; exact List.mem_map_of_mem _ hp)
      rw [if_neg hne]
      exact ih hnd.2 hp

theorem find_first_occurrence (l : List (byte_view × byte_view)) (i : Nat)
    (p : byte_view × byte_view) (hi : l[i]? = some p)
    (hfirst : ∀ (j : Nat) (q : byte_view × byte_view), j < i → l[j]? = some q → q.1 ≠ p.1) :
    ext_map.find l p.1 = some p.2 := by
  induction l generalizing i with
  | nil => simp at hi
  | cons e rest ih =>
    rw [find_cons]
    cases i with
    | zero =>
      simp only [List.getElem?_cons_zero, Option.some.injEq] at hi
      rw [hi, if_pos rfl]
    | succ n =>
      have he : e.1 ≠ p.1 := hfirst 0 e (Nat.succ_pos n) (by simp)
      rw [if_neg (fun h => he h.symm)]
      apply ih n
      · simpa using hi
      · intro j q hj hq
        exact hfirst (j + 1) q (by omega) (by simpa using hq)

/-! ## `incarnate_map` -/

theorem view_of_eq_take {data : List Nat} {len : Nat} (h : len ≤ data.length) :
    view_of data len = Outcome.value (List.take len data) := by
  unfold view_of
  rw [if_pos h]

theorem incarnate_loop_eq (data : KeyValueMap) (left pairIdx : Nat) (map : ext_map)
    (h : pairIdx + left ≤ data.values.length)
    (hviews : ∀ p ∈ (data.values.drop pairIdx).take left,
      p.key_len ≤ p.key.length ∧ p.val_len ≤ p.val.length) :
    internal.incarnate_map.loop data left pairIdx map =
      Outcome.value
        ((((data.values.drop pairIdx).take left).map KeyValuePair.views).foldl
          ext_map.emplace map) := by
  induction left generalizing pairIdx map with
  | zero => simp [internal.incarnate_map.loop]
  | succ n ih =>
    have hlt : pairIdx < data.values.length := by omega
    rw [List.drop_eq_getElem_cons hlt, List.take_succ_cons] at hviews
    have hp := hviews (data.values[pairIdx]) (by simp)
    rw [internal.incarnate_map.loop, List.getElem?_eq_getElem hlt]
    simp only [view_of_eq_take hp.1, view_of_eq_take hp.2]
    rw [ih (pairIdx + 1) _ (by omega) (fun p hpm => hviews p (by simp [hpm])),
      List.drop_eq_getElem_cons hlt, List.take_succ_cons, List.map_cons, List.foldl_cons]
    rfl

/-- On an array that holds at least `len` pairs, each with its key and its value inside their
arrays, `incarnate_map` yields the map obtained by inserting the designated pairs in the order
of the array. -/
theorem incarnate_map_eq (data : KeyValueMap) (h : data.len ≤ data.values.length)
    (hviews : ∀ p ∈ data.values.take data.len,
      p.key_len ≤ p.key.length ∧ p.val_len ≤ p.val.length) :
    internal.incarnate_map data =
      Outcome.value (data.pairs.foldl ext_map.emplace []) := by
  unfold internal.incarnate_map KeyValueMap.pairs
  rw [incarnate_loop_eq data data.len 0 [] (by omega) (by simpa using hviews), List.drop_zero]

/-- A key said to be longer than its array makes `incarnate_map` undefined. -/
theorem incarnate_map_overlong_key :
    internal.incarnate_map overlongKey = Outcome.undefined := by
  decide

theorem ascending_nil : ascending_keys [] := List.Pairwise.nil

/-- C5: on an array of `len` pairs with pairwise distinct keys, each key and value lying inside
its array, `incarnate_map` builds a map of exactly `len` entries, whose entries are the
designated pairs; it binds the first `key_len` bytes at `key` to the first `val_len` bytes at
`val`, and these byte sequences have exactly the lengths `key_len` and `val_len`. -/
theorem C5_distinct_keys_stored_unchanged (data : KeyValueMap)
    (hlen : data.len ≤ data.values.length)
    (hviews : ∀ p ∈ data.values.take data.len,
      p.key_len ≤ p.key.length ∧ p.val_len ≤ p.val.length)
    (hnd : (data.pairs.map Prod.fst).Nodup) :
    ∃ m, internal.incarnate_map data = Outcome.value m ∧
      m.length = data.len ∧
      m.Perm data.pairs ∧
      (∀ kv ∈ data.pairs, ext_map.find m kv.1 = some kv.2) ∧
      ∀ p ∈ data.values.take data.len,
        ext_map.find m (List.take p.key_len p.key) = some (List.take p.val_len p.val) ∧
        (List.take p.key_len p.key).length = p.key_len ∧
        (List.take p.val_len p.val).length = p.val_len ∧
        (∀ j : Nat, j < p.key_len → (List.take p.key_len p.key)[j]? = p.key[j]?) ∧
        (∀ j : Nat, j < p.val_len → (List.take p.val_len p.val)[j]? = p.val[j]?) := by
  have hfind : ∀ kv ∈ data.pairs,
      ext_map.find (data.pairs.foldl ext_map.emplace []) kv.1 = some kv.2 := by
    intro kv hkv
    rw [find_foldl data.pairs kv.1 ascending_nil, find_nil]
    exact find_of_mem_nodup hnd hkv
  refine ⟨_, incarnate_map_eq data hlen hviews, ?_, ?_, hfind, ?_⟩
  · have hp := (foldl_perm data.pairs ascending_nil hnd (fun p _ => find_nil p.1)).length_eq
    rw [hp]
    simp [KeyValueMap.pairs, hlen]
  · simpa using foldl_perm data.pairs ascending_nil hnd (fun p _ => find_nil p.1)
  · intro p hp
    have hmem : p.views ∈ data.pairs := List.mem_map_of_mem _ hp
    have hb := hviews p hp
    refine ⟨hfind p.views hmem, ?_, ?_, ?_, ?_⟩
    · exact List.length_take_of_le hb.1
    · exact List.length_take_of_le hb.2
    · intro j hj
      exact List.getElem?_take_of_lt hj
    · intro j hj
      exact List.getElem?_take_of_lt hj

/-- Instance of C5 for an array of two pairs, one value holding non-printable bytes. -/
theorem C5_distinct_keys_stored_unchanged_witness :
    ∃ m, internal.incarnate_map twoKeys = Outcome.value m ∧
      m.length = twoKeys.len ∧
      m.Perm twoKeys.pairs ∧
      (∀ kv ∈ twoKeys.pairs, ext_map.find m kv.1 = some kv.2) ∧
      ∀ p ∈ twoKeys.values.take twoKeys.len,
        ext_map.find m (List.take p.key_len p.key) = some (List.take p.val_len p.val) ∧
        (List.take p.key_len p.key).length = p.key_len ∧
        (List.take p.val_len p.val).length = p.val_len ∧
        (∀ j : Nat, j < p.key_len → (List.take p.key_len p.key)[j]? = p.key[j]?) ∧
        (∀ j : Nat, j < p.val_len → (List.take p.val_len p.val)[j]? = p.val[j]?) :=
  C5_distinct_keys_stored_unchanged twoKeys (by decide) (by decide) (by decide)

/-- C6, refuted as stated: for two pairs with the same key, the map binds the key to the value
of the first pair, not to the value of the last one. -/
theorem C6_counterexample :
    ∃ m, internal.incarnate_map duplicateKeys = Outcome.value m ∧
      duplicateKeys.pairs = [([1], [10]), ([1], [20])] ∧
      ext_map.find m [1] = some [10] ∧ ext_map.find m [1] ≠ some [20] := by
  refine ⟨[([1], [10])], ?_, ?_, ?_, ?_⟩ <;> decide

/-- C6, amended: duplicate keys are resolved first-write-wins. On an array of `len` pairs, each
key and value lying inside its array, the map built by `incarnate_map` binds every key to the
value of the first pair (lowest index) carrying that key. -/
theorem C6_first_write_wins (data : KeyValueMap) (hlen : data.len ≤ data.values.length)
    (hviews : ∀ p ∈ data.values.take data.len,
      p.key_len ≤ p.key.length ∧ p.val_len ≤ p.val.length) :
    ∃ m, internal.incarnate_map data = Outcome.value m ∧
      ∀ (i : Nat) (p : KeyValuePair), (data.values.take data.len)[i]? = some p →
        (∀ (j : Nat) (q : KeyValuePair), j < i → (data.values.take data.len)[j]? = some q →
          List.take q.key_len q.key ≠ List.take p.key_len p.key) →
        ext_map.find m (List.take p.key_len p.key) = some (List.take p.val_len p.val) ∧
        (List.take p.key_len p.key).length = p.key_len ∧
        (List.take p.val_len p.val).length = p.val_len := by
  refine ⟨_, incarnate_map_eq data hlen hviews, ?_⟩
  intro i p hi hfirst
  have hb := hviews p (List.getElem?_mem hi)
  refine ⟨?_, List.length_take_of_le hb.1, List.length_take_of_le hb.2⟩
  rw [find_foldl data.pairs _ ascending_nil, find_nil]
  apply find_first_occurrence data.pairs i p.views
  · unfold KeyValueMap.pairs
    rw [List.getElem?_map, hi]
    rfl
  · intro j q hj hq
    unfold KeyValueMap.pairs at hq
    rw [List.getElem?_map, Option.map_eq_some'] at hq
    obtain ⟨r, hr, rfl⟩ := hq
    exact hfirst j r hj hr

/-- Instance of the amended C6 for the two pairs with the same key. -/
theorem C6_first_write_wins_witness :
    ∃ m, internal.incarnate_map duplicateKeys = Outcome.value m ∧
      ∀ (i : Nat) (p : KeyValuePair), (duplicateKeys.values.take duplicateKeys.len)[i]? = some p →
        (∀ (j : Nat) (q : KeyValuePair), j < i →
          (duplicateKeys.values.take duplicateKeys.len)[j]? = some q →
          List.take q.key_len q.key ≠ List.take p.key_len p.key) →
        ext_map.find m (List.take p.key_len p.key) = some (List.take p.val_len p.val) ∧
        (List.take p.key_len p.key).length = p.key_len ∧
        (List.take p.val_len p.val).length = p.val_len :=
  C6_first_write_wins duplicateKeys (by decide) (by decide)

/-! ## The dump -/

theorem write_bytes_append (out : ostream) (b : byte_view) :
    internal.write_bytes out b = out ++ internal.write_bytes [] b := by
  rw [write_bytes_eq_map out b, write_bytes_eq_map [] b, List.nil_append]

theorem write_extensions_eq (out : ostream) (m : ext_map) :
    write_extensions out m = out ++ (m.map extension_line).flatten := by
  induction m generalizing out with
  | nil => simp [write_extensions]
  | cons e rest ih =>
    rw [write_extensions]
    simp only [put]
    rw [ih, write_bytes_append _ e.2, write_bytes_append _ e.1]
    simp [extension_line, List.append_assoc]

set_option maxRecDepth 8000 in
/-- The dump is the text already in the stream, the opening line, the labelled lines, the
lines of the entries of the extensions and the closing brace. -/
theorem operator_shl_eq (out : ostream) (c : IceCandidate) :
    operator_shl out c =
      out ++ "IceCandidate : \x7b\n".toList ++
        ((dump_lines c).map (fun l => labelled_line l.1 l.2)).flatten ++
        (dump_entries c).flatten ++ "\x7d".toList := by
  obtain ⟨f, ci, t, pr, ca, po, ty, ra, rp, ex⟩ := c
  cases ra <;> cases rp <;> cases ex <;>
    simp only [operator_shl, put, put_int, write_extensions_eq, dump_lines, dump_entries,
      labelled_line, decimal, List.map_cons, List.map_nil, List.flatten_cons, List.flatten_nil,
      List.append_assoc, List.append_nil] <;> rfl

/-- C7, refuted as stated: the dump of a candidate without `rel_port` is the dump of the same
candidate with the port 0, and the dump of a candidate without `rel_address` is the dump of the
same candidate with the empty address. -/
theorem C7_counterexample :
    operator_shl [] { sampleCandidate with rel_port := none } =
        operator_shl [] { sampleCandidate with rel_port := some 0 } ∧
      operator_shl [] { sampleCandidate with rel_address := none } =
        operator_shl [] { sampleCandidate with rel_address := some [] } := by
  constructor <;> rfl

/-- C7, amended: in the dump an absent `extensions` is rendered as the placeholder `-`, which
differs from the rendering of every present mapping, and an absent `rel_address` is rendered as
the empty text, which differs from the rendering of every present address that is not empty;
two present addresses with the same rendering are the same address. -/
theorem C7_absent_optional_rendering (out : ostream) (c : IceCandidate) :
    (∀ m : ext_map,
      operator_shl out { c with extensions := none } ≠
        operator_shl out { c with extensions := some m }) ∧
    (∀ a : string_view, a ≠ [] →
      operator_shl out { c with rel_address := none } ≠
        operator_shl out { c with rel_address := some a }) ∧
    (∀ a b : string_view,
      operator_shl out { c with rel_address := some a } =
        operator_shl out { c with rel_address := some b } → a = b) := by
  refine ⟨?_, ?_, ?_⟩
  · intro m h
    rw [operator_shl_eq, operator_shl_eq] at h
    simp only [dump_lines, dump_entries, labelled_line, List.map_cons, List.map_nil,
      List.flatten_cons, List.flatten_nil, List.append_assoc, List.append_cancel_left_eq] at h
    cases h
  · intro a ha h
    rw [operator_shl_eq, operator_shl_eq] at h
    simp only [dump_lines, dump_entries, labelled_line, List.map_cons, List.map_nil,
      List.flatten_cons, List.flatten_nil, List.append_assoc, List.append_cancel_left_eq] at h
    exact ha (List.append_cancel_right h).symm
  · intro a b h
    rw [operator_shl_eq, operator_shl_eq] at h
    simp only [dump_lines, dump_entries, labelled_line, List.map_cons, List.map_nil,
      List.flatten_cons, List.flatten_nil, List.append_assoc, List.append_cancel_left_eq] at h
    exact List.append_cancel_right h

/-- Instance of the amended C7 for the sample candidate and the address 10.0.1.1. -/
theorem C7_absent_optional_rendering_witness :
    operator_shl [] { sampleCandidate with rel_address := none } ≠
      operator_shl [] { sampleCandidate with rel_address := some "10.0.1.1".toList } :=
  (C7_absent_optional_rendering [] sampleCandidate).2.1 "10.0.1.1".toList (by decide)

/-! ## The lines of the dump -/

theorem text_lines_append_lf (a rest : List Char) (h : '\n' ∉ a) :
    text_lines (a ++ '\n' :: rest) = a :: text_lines rest := by
  induction a with
  | nil => simp [text_lines]
  | cons ch a ih =>
    have hc : ch ≠ '\n' := fun e => h (by simp [e])
    have ha : '\n' ∉ a := fun e => h (by simp [e])
    show text_lines (ch :: (a ++ '\n' :: rest)) = _
    rw [text_lines, if_neg hc, ih ha]

theorem text_lines_single (a : List Char) (h : '\n' ∉ a) : text_lines a = [a] := by
  induction a with
  | nil => rfl
  | cons ch a ih =>
    have hc : ch ≠ '\n' := fun e => h (by simp [e])
    have ha : '\n' ∉ a := fun e => h (by simp [e])
    rw [text_lines, if_neg hc, ih ha]

/-- A text made of lines without line feed, each followed by a line feed, and of a last piece
without line feed has exactly these lines. -/
theorem text_lines_flatten (ls : List (List Char)) (last : List Char)
    (hls : ∀ l ∈ ls, '\n' ∉ l) (hlast : '\n' ∉ last) :
    text_lines ((ls.map (fun l => l ++ ['\n'])).flatten ++ last) = ls ++ [last] := by
  induction ls with
  | nil => simpa using text_lines_single last hlast
  | cons l ls ih =>
    have hl : '\n' ∉ l := hls l (by simp)
    have hrest : ∀ x ∈ ls, '\n' ∉ x := fun x hx => hls x (by simp [hx])
    have e : ((l :: ls).map (fun l => l ++ ['\n'])).flatten ++ last =
        l ++ '\n' :: ((ls.map (fun l => l ++ ['\n'])).flatten ++ last) := by
      simp [List.append_assoc]
    rw [e, text_lines_append_lf l _ hl, ih hrest]
    rfl

theorem digitChar_ne_lf : ∀ d : Nat, d < 10 → Nat.digitChar d ≠ '\n' := by
  decide

theorem toDigitsCore_no_lf (fuel n : Nat) (ds : List Char) (hds : '\n' ∉ ds) :
    '\n' ∉ Nat.toDigitsCore 10 fuel n ds := by
  induction fuel generalizing n ds with
  | zero => simpa [Nat.toDigitsCore] using hds
  | succ fuel ih =>
    have hcons : '\n' ∉ Nat.digitChar (n % 10) :: ds := by
      intro hmem
      rcases List.mem_cons.1 hmem with h | h
      · exact digitChar_ne_lf _ (Nat.mod_lt n (by decide)) h.symm
      · exact hds h
    show '\n' ∉ (if n / 10 = 0 then Nat.digitChar (n % 10) :: ds
      else Nat.toDigitsCore 10 fuel (n / 10) (Nat.digitChar (n % 10) :: ds))
    split_ifs
    · exact hcons
    · exact ih _ _ hcons

theorem decimal_no_lf (n : Nat) : '\n' ∉ decimal n :=
  toDigitsCore_no_lf _ _ [] (by simp)

theorem write_bytes_no_lf (b : byte_view) : '\n' ∉ internal.write_bytes [] b := by
  rw [write_bytes_eq_map, List.nil_append]
  intro hmem
  obtain ⟨x, -, hx⟩ := List.mem_map.1 hmem
  by_cases hp : internal.isprint x = true
  · rw [if_pos hp] at hx
    have h1 := toNat_ofNat_of_isprint hp
    rw [hx] at h1
    have h2 : x = 10 := h1.symm
    rw [h2] at hp
    exact absurd hp (by decide)
  · rw [if_neg hp] at hx
    exact absurd hx (by decide)

theorem isPrefixOf_append_same_length {a b : List Char} (t : List Char)
    (h : a.length = b.length) : a.isPrefixOf (b ++ t) = decide (a = b) := by
  induction a generalizing b with
  | nil =>
    cases b with
    | nil => simp
    | cons y ys => simp at h
  | cons x xs ih =>
    cases b with
    | nil => simp at h
    | cons y ys =>
      have hl : xs.length = ys.length := by simpa using h
      by_cases hxy : x = y
      · simp [List.isPrefixOf, hxy, ih hl]
      · simp [List.isPrefixOf, hxy]

theorem find?_congr_mem {α : Type} (l : List α) (p q : α → Bool)
    (h : ∀ x ∈ l, p x = q x) : l.find? p = l.find? q := by
  induction l with
  | nil => rfl
  | cons x xs ih =>
    rw [List.find?_cons, List.find?_cons, h x (by simp),
      ih (fun y hy => h y (by simp [hy]))]

theorem find?_decide_eq (l : List String) (label : String) (h : label ∈ l) :
    l.find? (fun x => decide (x = label)) = some label := by
  induction l with
  | nil => cases h
  | cons x xs ih =>
    rw [List.find?_cons]
    by_cases hx : x = label
    · simp [hx]
    · have hmem : label ∈ xs := by
        rcases List.mem_cons.1 h with h1 | h1
        · exact absurd h1.symm hx
        · exact h1
      simp [hx, ih hmem]

/-- A line that begins with the start of a label of the data model is labelled with it. -/
theorem line_label_start (label : String) (h : label ∈ field_labels) (text : List Char) :
    line_label (label_start label ++ text) = some label := by
  have hlen : ∀ x ∈ field_labels, (label_start x).length = 22 := by decide
  have hinj : ∀ x ∈ field_labels, ∀ y ∈ field_labels, label_start x = label_start y → x = y := by
    decide
  unfold line_label
  rw [find?_congr_mem field_labels _ (fun x => decide (x = label))]
  · exact find?_decide_eq field_labels label h
  · intro x hx
    rw [isPrefixOf_append_same_length text ((hlen x hx).trans (hlen label h).symm)]
    by_cases hxl : x = label
    · simp [hxl]
    · have hne : label_start x ≠ label_start label := fun e => hxl (hinj x hx label h e)
      simp [hxl, hne]

theorem filterMap_eq_nil_of_none {α β : Type} (f : α → Option β) (l : List α)
    (h : ∀ x ∈ l, f x = none) : l.filterMap f = [] := by
  induction l with
  | nil => rfl
  | cons x xs ih =>
    rw [List.filterMap_cons, h x (by simp)]
    exact ih (fun y hy => h y (by simp [hy]))

theorem extension_line_eq (e : byte_view × byte_view) :
    extension_line e =
      ("\t\t".toList ++ internal.write_bytes [] e.1 ++ " => ".toList ++
        internal.write_bytes [] e.2) ++ ['\n'] := rfl

/-- The dump written to an empty stream, as a sequence of lines: the opening line, the ten
labelled lines, the lines of the entries, each followed by a line feed, and the closing brace. -/
theorem operator_shl_lines (c : IceCandidate) :
    operator_shl [] c =
      ((("IceCandidate : \x7b".toList :: (dump_lines c).map (fun l => label_start l.1 ++ l.2)) ++
        dump_entry_texts c).map (fun l => l ++ ['\n'])).flatten ++ "\x7d".toList := by
  have hentries : (dump_entries c).flatten =
      ((dump_entry_texts c).map (fun l => l ++ ['\n'])).flatten := by
    unfold dump_entries dump_entry_texts
    cases c.extensions with
    | none => rfl
    | some m =>
      simp only [List.map_map]
      congr 1
  have hlines : ((dump_lines c).map (fun l => labelled_line l.1 l.2)).flatten =
      (((dump_lines c).map (fun l => label_start l.1 ++ l.2)).map
        (fun l => l ++ ['\n'])).flatten := by
    simp only [List.map_map]
    congr 1
  rw [operator_shl_eq, hentries, hlines, List.nil_append, List.map_append, List.map_cons,
    List.flatten_append, List.flatten_cons]
  simp only [List.append_assoc]
  rfl

/-- C8, refuted as stated: for a candidate whose foundation holds a line feed followed by the
start of a line labelled `port`, the dump has eleven labelled lines, two of them labelled
`port`, so it does not hold exactly one labelled line per field in the order of the data
model. -/
theorem C8_counterexample :
    labels_of_lines (operator_shl [] lineFeedCandidate) =
        ["foundation", "port", "component_id", "transport", "priority", "connection_address",
          "port", "type", "rel_address", "rel_port", "extensions"] ∧
      labels_of_lines (operator_shl [] lineFeedCandidate) ≠
        ["foundation", "component_id", "transport", "priority", "connection_address", "port",
          "type", "rel_address", "rel_port", "extensions"] := by
  constructor <;> decide

/-- C8, amended: for a candidate whose texts (foundation, transport, connection address, type
and, when present, related address) hold no line feed, the dump is a single text whose lines
are the opening line, exactly one labelled line for each of foundation, component_id,
transport, priority, connection_address, port, type, rel_address, rel_port and extensions, in
this order, the lines of the extension entries and the closing brace; the line of a mandatory
field is the start of its label followed by the stored text, or by the decimal digits of the
stored number. Whatever the texts hold, the dump is the concatenation of these pieces. -/
theorem C8_dump_lines_without_line_feed (c : IceCandidate)
    (hf : '\n' ∉ c.foundation) (ht : '\n' ∉ c.transport.value)
    (ha : '\n' ∉ c.connection_address) (hty : '\n' ∉ c.type.value)
    (hra : ∀ a, c.rel_address = some a → '\n' ∉ a) :
    (∀ out : ostream,
      operator_shl out c =
        out ++ "IceCandidate : \x7b\n".toList ++
          ((dump_lines c).map (fun l => labelled_line l.1 l.2)).flatten ++
          (dump_entries c).flatten ++ "\x7d".toList) ∧
      text_lines (operator_shl [] c) =
        ("IceCandidate : \x7b".toList :: (dump_lines c).map (fun l => label_start l.1 ++ l.2)) ++
          dump_entry_texts c ++ ["\x7d".toList] ∧
      labels_of_lines (operator_shl [] c) =
        ["foundation", "component_id", "transport", "priority", "connection_address", "port",
          "type", "rel_address", "rel_port", "extensions"] ∧
      (dump_lines c).map Prod.fst =
        ["foundation", "component_id", "transport", "priority", "connection_address", "port",
          "type", "rel_address", "rel_port", "extensions"] ∧
      (dump_lines c).take 7 =
        [("foundation", c.foundation), ("component_id", Nat.toDigits 10 c.component_id),
          ("transport", c.transport.value), ("priority", Nat.toDigits 10 c.priority),
          ("connection_address", c.connection_address), ("port", Nat.toDigits 10 c.port),
          ("type", c.type.value)] ∧
      (∀ text : List Char,
        label_start "foundation" ++ text = "\tfoundation         : ".toList ++ text ∧
        label_start "component_id" ++ text = "\tcomponent_id       : ".toList ++ text ∧
        label_start "transport" ++ text = "\ttransport          : ".toList ++ text ∧
        label_start "priority" ++ text = "\tpriority           : ".toList ++ text ∧
        label_start "connection_address" ++ text = "\tconnection_address : ".toList ++ text ∧
        label_start "port" ++ text = "\tport               : ".toList ++ text ∧
        label_start "type" ++ text = "\ttype               : ".toList ++ text ∧
        label_start "rel_address" ++ text = "\trel_address        : ".toList ++ text ∧
        label_start "rel_port" ++ text = "\trel_port           : ".toList ++ text ∧
        label_start "extensions" ++ text = "\textensions         : ".toList ++ text) := by
  have hstart : ∀ x ∈ field_labels, '\n' ∉ label_start x := by decide
  have hfields : ∀ l ∈ dump_lines c, l.1 ∈ field_labels ∧ '\n' ∉ l.2 := by
    intro l hl
    simp only [dump_lines, List.mem_cons, List.mem_singleton, List.not_mem_nil, or_false] at hl
    rcases hl with h | h | h | h | h | h | h | h | h | h <;> subst h
    · exact ⟨(by decide : "foundation" ∈ field_labels), hf⟩
    · exact ⟨(by decide : "component_id" ∈ field_labels), decimal_no_lf _⟩
    · exact ⟨(by decide : "transport" ∈ field_labels), ht⟩
    · exact ⟨(by decide : "priority" ∈ field_labels), decimal_no_lf _⟩
    · exact ⟨(by decide : "connection_address" ∈ field_labels), ha⟩
    · exact ⟨(by decide : "port" ∈ field_labels), decimal_no_lf _⟩
    · exact ⟨(by decide : "type" ∈ field_labels), hty⟩
    · refine ⟨(by decide : "rel_address" ∈ field_labels), ?_⟩
      cases hr : c.rel_address with
      | none => exact List.not_mem_nil _
      | some a => exact hra a hr
    · refine ⟨(by decide : "rel_port" ∈ field_labels), ?_⟩
      cases c.rel_port with
      | none => exact decimal_no_lf 0
      | some p => exact decimal_no_lf p
    · refine ⟨(by decide : "extensions" ∈ field_labels), ?_⟩
      cases c.extensions with
      | none => exact (by decide : '\n' ∉ "-".toList)
      | some m => exact (by decide : '\n' ∉ "\x7b".toList)
  have hentry : ∀ l ∈ dump_entry_texts c, '\n' ∉ l ∧ line_label l = none := by
    intro l hl
    unfold dump_entry_texts at hl
    cases hx : c.extensions with
    | none =>
      rw [hx] at hl
      cases hl
    | some m =>
      rw [hx] at hl
      obtain ⟨e, -, rfl⟩ := List.mem_map.1 hl
      refine ⟨?_, rfl⟩
      intro hmem
      simp only [List.mem_append] at hmem
      rcases hmem with ((h | h) | h) | h
      · exact absurd h (by decide)
      · exact write_bytes_no_lf _ h
      · exact absurd h (by decide)
      · exact write_bytes_no_lf _ h
  have hlines : text_lines (operator_shl [] c) =
      ("IceCandidate : \x7b".toList :: (dump_lines c).map (fun l => label_start l.1 ++ l.2)) ++
        dump_entry_texts c ++ ["\x7d".toList] := by
    rw [operator_shl_lines, text_lines_flatten]
    · intro l hl
      rcases List.mem_append.1 hl with h | h
      · rcases List.mem_cons.1 h with h | h
        · rw [h]
          decide
        · obtain ⟨x, hx, rfl⟩ := List.mem_map.1 h
          intro hmem
          rcases List.mem_append.1 hmem with h1 | h1
          · exact hstart x.1 (hfields x hx).1 h1
          · exact (hfields x hx).2 h1
      · exact (hentry l h).1
    · decide
  refine ⟨fun out => operator_shl_eq out c, hlines, ?_, rfl, rfl, ?_⟩
  · unfold labels_of_lines
    rw [hlines, List.filterMap_append, List.filterMap_append, List.filterMap_cons,
      filterMap_eq_nil_of_none line_label (dump_entry_texts c) (fun l hl => (hentry l hl).2)]
    have hten : ((dump_lines c).map (fun l => label_start l.1 ++ l.2)).filterMap line_label =
        (dump_lines c).map Prod.fst := by
      rw [List.filterMap_map]
      rw [← List.filterMap_eq_map]
      apply List.filterMap_congr
      intro l hl
      exact line_label_start l.1 (hfields l hl).1 l.2
    rw [hten]
    rfl
  · intro text
    refine ⟨rfl, rfl, rfl, rfl, rfl, rfl, rfl, rfl, rfl, rfl⟩

/-- Instance of the amended C8 for the sample candidate. -/
theorem C8_dump_lines_without_line_feed_witness :
    labels_of_lines (operator_shl [] sampleCandidate) =
      ["foundation", "component_id", "transport", "priority", "connection_address", "port",
        "type", "rel_address", "rel_port", "extensions"] :=
  (C8_dump_lines_without_line_feed sampleCandidate (by decide) (by decide) (by decide)
    (by decide) (by decide)).2.2.1

/-- Safe display of a byte sequence with control bytes and bytes above 0x7E. -/
theorem write_bytes_sample :
    internal.write_bytes "=".toList [65, 7, 200, 126, 127, 31, 32, 0] = "=A??~?? ?".toList := by
  decide

set_option maxRecDepth 100000 in
/-- The dump of the candidate built from the sample record. -/
theorem sample_dump :
    ∃ c, IceCandidate.ctor (some sampleFFI) = Outcome.value c ∧
      operator_shl [] c =
        ("IceCandidate : \x7b\n" ++
          "\tfoundation         : 1\n" ++
          "\tcomponent_id       : 1\n" ++
          "\ttransport          : udp\n" ++
          "\tpriority           : 2130706431\n" ++
          "\tconnection_address : 192.168.1.1\n" ++
          "\tport               : 8998\n" ++
          "\ttype               : host\n" ++
          "\trel_address        : 10.0.1.1\n" ++
          "\trel_port           : 8998\n" ++
          "\textensions         : \x7b\n" ++
          "\t\tgen => 0?\n" ++
          "\x7d").toList := by
  refine ⟨_, rfl, ?_⟩
  decide

end dbrgn
